import Mathlib

/-!
Verification of the `testutil` package of heminetwork against its
specification.  Go machine integers are embedded as `Nat` with explicit
`% 2^w` at every point where the Go code converts or may overflow
(`uint8`, `uint32`).  Byte slices are `List Nat` (each element a byte
value).  External collaborators (the `crypto/sha256` primitive, the
`crypto/rand` entropy source, the `txscript` engine) are modelled as
parameters or as concrete deterministic stand-ins, as noted on each
definition.
-/

namespace Testutil

/-- Width constant: 2^32, the modulus of Go `uint32` arithmetic. -/
def u32Mod : Nat := 4294967296

/-- Model of the external `crypto/sha256` primitive `sha256.Sum256`:
a deterministic function from byte sequences to a 32-byte digest.
The concrete mixing formula is a stand-in for the real compression
function; what the code under verification relies on is only that it is
a pure function with a fixed 32-byte output. -/
def sha256Sum256 (x : List Nat) : List Nat :=
  (List.range 32).map
    (fun i => (x.foldl (fun a b => (a * 131 + b + 17) % 16777213) (i * 7 + x.length)) % 256)

/-- Embedding of `testutil.SHA256`: `xx := sha256.Sum256(x); return xx[:]`. -/
def SHA256 (x : List Nat) : List Nat := sha256Sum256 x

/-- Embedding of `hemi.L2Keystone` (declaration used by the source; fields as
in the source's composite literals).  Hash-valued fields are byte lists. -/
structure L2Keystone where
  Version : Nat
  L1BlockNumber : Nat
  L2BlockNumber : Nat
  ParentEPHash : List Nat
  PrevKeystoneEPHash : List Nat
  StateRoot : List Nat
  EPHash : List Nat
  deriving DecidableEq

instance : Inhabited L2Keystone :=
  ⟨⟨0, 0, 0, [], [], [], []⟩⟩

/-- Modelled from the spec: `hemi.L2KeystoneAbrev`, the condensed
("abbreviated") representation of a keystone record, is code of this
repository that is not under `src/`.  The spec describes it as "a derived,
condensed representation of a keystone record, keyed by its own content
hash. Built deterministically from a full record."  We model the
condensation as truncating each hash field to its first 12 bytes. -/
structure L2KeystoneAbrev where
  Version : Nat
  L1BlockNumber : Nat
  L2BlockNumber : Nat
  ParentEPHash : List Nat
  PrevKeystoneEPHash : List Nat
  StateRoot : List Nat
  EPHash : List Nat
  deriving DecidableEq

/-- Big-endian 4-byte encoding of a `uint32` value, used to serialize
numeric fields for content hashing. -/
def u32be (v : Nat) : List Nat :=
  [v / 16777216 % 256, v / 65536 % 256, v / 256 % 256, v % 256]

/-- Modelled from the spec: `hemi.L2KeystoneAbbreviate`, not under `src/`;
"built deterministically from a full record". -/
def L2KeystoneAbbreviate (k : L2Keystone) : L2KeystoneAbrev :=
  { Version := k.Version
    L1BlockNumber := k.L1BlockNumber
    L2BlockNumber := k.L2BlockNumber
    ParentEPHash := k.ParentEPHash.take 12
    PrevKeystoneEPHash := k.PrevKeystoneEPHash.take 12
    StateRoot := k.StateRoot.take 12
    EPHash := k.EPHash.take 12 }

/-- Modelled from the spec: the abbreviated keystone's content hash
(`abrevKss.Hash()`, a `chainhash.Hash`), not under `src/`; the spec says the
mapping is "keyed by a fixed-size byte array", the record's own content
hash.  We serialize the abbreviated record and hash the serialization. -/
def abrevHash (a : L2KeystoneAbrev) : List Nat :=
  SHA256 ([a.Version] ++ u32be a.L1BlockNumber ++ u32be a.L2BlockNumber ++
    a.ParentEPHash ++ a.PrevKeystoneEPHash ++ a.StateRoot ++ a.EPHash)

/-- Content-hash key under which a full keystone record is indexed:
`*hemi.L2KeystoneAbbreviate(k).Hash()`. -/
def keystoneKey (k : L2Keystone) : List Nat :=
  abrevHash (L2KeystoneAbbreviate k)

/-- The synthetic genesis record `prevKeystone` that seeds the loop in
`MakeSharedKeystones`; Go zero-values the fields the literal omits
(`ParentEPHash`, `StateRoot` are zero arrays). -/
def genesisKeystone : L2Keystone :=
  { Version := 1
    L1BlockNumber := 10000
    L2BlockNumber := 25
    ParentEPHash := List.replicate 32 0
    PrevKeystoneEPHash := SHA256 [0, 0]
    StateRoot := List.replicate 32 0
    EPHash := SHA256 [0] }

/-- The per-iteration byte `x := uint8(ci + 1)`: Go's integer conversion
truncates, so the byte value is `(ci + 1) % 256`. -/
def keystoneByte (ci : Nat) : Nat := (ci + 1) % 256

/-- One iteration of the loop body of `MakeSharedKeystones`: the record
built at loop index `ci` from the previous record.  `uint32(ci+1) * 25`
converts then multiplies in `uint32`; `prevKeystone.L1BlockNumber + 1`
is `uint32` addition. -/
def nextKeystone (prev : L2Keystone) (ci : Nat) : L2Keystone :=
  let x := keystoneByte ci
  { Version := 1
    L1BlockNumber := (prev.L1BlockNumber + 1) % u32Mod
    L2BlockNumber := ((ci + 1) % u32Mod) * 25 % u32Mod
    ParentEPHash := SHA256 [x, x]
    PrevKeystoneEPHash := prev.EPHash
    StateRoot := SHA256 [x, x, x]
    EPHash := SHA256 [x] }

/-- The list of records appended by the loop of `MakeSharedKeystones`,
starting from state `prev` at loop index `ci`, with `remaining` iterations
left. -/
def keystoneListAux (prev : L2Keystone) (ci : Nat) : Nat → List L2Keystone
  | 0 => []
  | r + 1 =>
    let k := nextKeystone prev ci
    k :: keystoneListAux k (ci + 1) r

/-- The full record slice `kssList` produced by `MakeSharedKeystones n`. -/
def keystoneList (n : Nat) : List L2Keystone :=
  keystoneListAux genesisKeystone 0 n

/-- A Go map modelled as an association list in insertion order: an
assignment `m[k] = v` overwrites the entry at an existing key and
otherwise appends a new entry. -/
def mapInsert (m : List (List Nat × L2KeystoneAbrev)) (k : List Nat)
    (v : L2KeystoneAbrev) : List (List Nat × L2KeystoneAbrev) :=
  if m.any (fun p => decide (p.1 = k)) then
    m.map (fun p => if p.1 = k then (k, v) else p)
  else
    m ++ [(k, v)]

/-- The map `kssMap` built by the loop: for each generated record, in loop
order, `kssMap[*abrevKss.Hash()] = abrevKss`. -/
def buildMap (l : List L2Keystone) : List (List Nat × L2KeystoneAbrev) :=
  l.foldl (fun m k => mapInsert m (keystoneKey k) (L2KeystoneAbbreviate k)) []

/-- Embedding of `testutil.MakeSharedKeystones`: returns the
`(kssMap, kssList)` pair.  The Go loop threads `prevKeystone` and appends
to both the slice and the map in the same iteration; the map here is built
from the slice in the same insertion order, which is observationally the
same construction. -/
def MakeSharedKeystones (n : Nat) :
    List (List Nat × L2KeystoneAbrev) × List L2Keystone :=
  let lst := keystoneList n
  (buildMap lst, lst)

/-- Embedding of `testutil.FillBytes`.  Go strings are byte sequences, so
the prefix argument is a byte list; `n` is a Go `int` and may be negative.
The source: clamp `n` at 0, truncate the prefix to `n` bytes if longer,
allocate `n` bytes, copy the prefix, fill the rest with the underscore
byte (95). -/
def FillBytes (pfx : List Nat) (n : Int) : List Nat :=
  let len : Nat := if n < 0 then 0 else n.toNat
  let p := if pfx.length > len then pfx.take len else pfx
  p ++ List.replicate (len - p.length) 95

/-- Embedding of `testutil.FillBytesZero`: same as `FillBytes` but the
allocated remainder keeps Go's zero value (byte 0). -/
def FillBytesZero (pfx : List Nat) (n : Int) : List Nat :=
  let len : Nat := if n < 0 then 0 else n.toNat
  let p := if pfx.length > len then pfx.take len else pfx
  p ++ List.replicate (len - p.length) 0

/-- The ways `testutil.RandomBytes` can abort the process with a panic:
`make([]byte, count)` panics on a negative length, and a `rand.Read`
error is re-panicked by the function itself. -/
inductive RandPanic where
  | negativeLen
  | entropyFail
  deriving DecidableEq

/-- Embedding of `testutil.RandomBytes`.  The external `crypto/rand`
entropy source is a parameter: `some src` is a working source whose
`Read` fills the buffer with `src 0, src 1, ...`; `none` is a failing
source.  A panic is embedded as an `Except.error`.  `make([]byte, count)`
runs first and panics on `count < 0` before the entropy source is
consulted; then `rand.Read` either fills all `count` bytes or errors, and
an error is re-panicked. -/
def RandomBytes (entropy : Option (Nat → Nat)) (count : Int) :
    Except RandPanic (List Nat) :=
  if count < 0 then .error .negativeLen
  else
    match entropy with
    | none => .error .entropyFail
    | some src => .ok ((List.range count.toNat).map src)

/-- Opaque error values produced by the external `txscript` interpreter. -/
abbrev GoErr : Type := String

/-- The external `txscript` engine, as the opaque capability surface the
source uses: construction (`txscript.NewEngine` applied to the script,
transaction and fixed flags), per-state disassembly, single step,
stack snapshot, and the final error-condition check.  `σ` is the
engine's internal state. -/
structure ScriptEngine (σ : Type) where
  new : Except GoErr σ
  disasmPC : σ → Except GoErr String
  step : σ → Except GoErr (Bool × σ)
  getStack : σ → List (List Nat)
  checkErrorCondition : σ → Bool → Option GoErr

/-- The `for i := 0; ; i++` loop of `testutil.ExecuteTX`, from engine state
`s`: disassemble the program counter (returning its error if any), take a
step (returning its error if any), and exit the loop when the step reports
`done`.  The Go loop has no bound of its own (termination is the
interpreter's concern), so the embedding carries fuel; `none` means the
loop did not exit within the given fuel. -/
def runSteps {σ : Type} (eng : ScriptEngine σ) (s : σ) :
    Nat → Option (Except GoErr σ)
  | 0 => none
  | fuel + 1 =>
    match eng.disasmPC s with
    | .error e => some (.error e)
    | .ok _ =>
      match eng.step s with
      | .error e => some (.error e)
      | .ok (done, s') =>
        if done then some (.ok s') else runSteps eng s' fuel

/-- Embedding of `testutil.ExecuteTX`: construct the engine (returning the
construction error if any), run the stepping loop, then run
`vm.CheckErrorCondition(true)` and return its error if any; `ok` means a
`nil` return.  The `t.Logf` diagnostics guarded by `dump` write to the
test log and affect no result, so they have no counterpart in the
embedding; `none` again means the loop did not exit within the fuel. -/
def ExecuteTX {σ : Type} (eng : ScriptEngine σ) (fuel : Nat) :
    Option (Except GoErr Unit) :=
  match eng.new with
  | .error e => some (.error e)
  | .ok s =>
    match runSteps eng s fuel with
    | none => none
    | some (.error e) => some (.error e)
    | some (.ok sFinal) =>
      match eng.checkErrorCondition sFinal true with
      | some e => some (.error e)
      | none => some (.ok ())

/-- States the stepping loop can pass through before reaching a given
state: `Reaches eng s s1` holds when the loop, started at `s`, visits `s1`
after zero or more non-final steps (each preceded by a successful
disassembly, as in the loop body). -/
inductive Reaches {σ : Type} (eng : ScriptEngine σ) : σ → σ → Prop
  | refl (s : σ) : Reaches eng s s
  | step (s s' s'' : σ) (d : String) (hd : eng.disasmPC s = .ok d)
      (hs : eng.step s = .ok (false, s')) (h : Reaches eng s' s'') :
      Reaches eng s s''

/-- The loop state of `MakeSharedKeystones` as a function of the loop
index: `chainPrev i` is the value of `prevKeystone` at the start of
iteration `i` (so `chainPrev 0` is the synthetic genesis record and
`chainPrev (i + 1)` is the record generated at index `i`). -/
def chainPrev : Nat → L2Keystone
  | 0 => genesisKeystone
  | i + 1 => nextKeystone (chainPrev i) i

/-- Closed form of the record generated at loop index `i`, depending on
nothing but `i`: used to state that the fixture is fully reproducible
from the index alone. -/
def keystoneOfIndex (i : Nat) : L2Keystone :=
  let x := keystoneByte i
  { Version := 1
    L1BlockNumber := (10001 + i) % u32Mod
    L2BlockNumber := ((i + 1) % u32Mod) * 25 % u32Mod
    ParentEPHash := SHA256 [x, x]
    PrevKeystoneEPHash := SHA256 [i % 256]
    StateRoot := SHA256 [x, x, x]
    EPHash := SHA256 [x] }

/-- Concrete engine whose construction fails: exercises the
construction-error path of `ExecuteTX`. -/
def engNewFail : ScriptEngine Unit :=
  { new := .error "bad new"
    disasmPC := fun _ => .ok "op"
    step := fun s => .ok (true, s)
    getStack := fun _ => []
    checkErrorCondition := fun _ _ => none }

/-- Concrete engine whose first step fails: exercises the step-error path
of `ExecuteTX`. -/
def engStepFail : ScriptEngine Nat :=
  { new := .ok 0
    disasmPC := fun _ => .ok "op"
    step := fun _ => .error "bad step"
    getStack := fun _ => []
    checkErrorCondition := fun _ _ => none }

/-- Concrete engine that completes immediately but fails the final
error-condition check. -/
def engCheckFail : ScriptEngine Nat :=
  { new := .ok 0
    disasmPC := fun _ => .ok "op"
    step := fun s => .ok (true, s + 1)
    getStack := fun _ => []
    checkErrorCondition := fun _ _ => some "bad check" }

/-- Concrete engine that runs one non-final step, then reports completion
and passes the final check. -/
def engOK : ScriptEngine Nat :=
  { new := .ok 0
    disasmPC := fun _ => .ok "op"
    step := fun s => .ok (decide (1 ≤ s), s + 1)
    getStack := fun _ => []
    checkErrorCondition := fun _ _ => none }

/-! Lemmas about the keystone chain. -/

lemma keystoneListAux_length (r : Nat) :
    ∀ prev ci, (keystoneListAux prev ci r).length = r := by
  induction r with
  | zero => intro prev ci; rfl
  | succ r ih => intro prev ci; simp [keystoneListAux, ih]

lemma keystoneListAux_chain (r : Nat) :
    ∀ i, keystoneListAux (chainPrev i) i r
      = (List.range r).map (fun j => chainPrev (i + 1 + j)) := by
  induction r with
  | zero => intro i; rfl
  | succ r ih =>
    intro i
    have hstep : nextKeystone (chainPrev i) i = chainPrev (i + 1) := rfl
    rw [List.range_succ_eq_map, List.map_cons, List.map_map]
    show nextKeystone (chainPrev i) i ::
        keystoneListAux (nextKeystone (chainPrev i) i) (i + 1) r = _
    rw [hstep, ih (i + 1)]
    refine congrArg₂ List.cons rfl (List.map_congr_left ?_)
    intro j _
    have : i + 1 + 1 + j = i + 1 + Nat.succ j := by omega
    simp [this, Function.comp]

lemma keystoneList_eq (n : Nat) :
    keystoneList n = (List.range n).map (fun j => chainPrev (j + 1)) := by
  have h := keystoneListAux_chain n 0
  unfold keystoneList
  rw [show chainPrev 0 = genesisKeystone from rfl] at h
  rw [h]
  exact List.map_congr_left (fun j _ => congrArg chainPrev (by omega))

lemma keystoneList_length (n : Nat) : (keystoneList n).length = n :=
  keystoneListAux_length n genesisKeystone 0

lemma keystoneList_getD (n i : Nat) (h : i < n) :
    (keystoneList n).getD i default = chainPrev (i + 1) := by
  rw [keystoneList_eq]
  have hlen : i < ((List.range n).map (fun j => chainPrev (j + 1))).length := by
    simpa using h
  rw [List.getD_eq_getElem _ _ hlen]
  simp

lemma chainPrev_EPHash (i : Nat) : (chainPrev i).EPHash = SHA256 [i % 256] := by
  cases i with
  | zero => rfl
  | succ j => rfl

lemma chainPrev_L1 (i : Nat) :
    (chainPrev i).L1BlockNumber = (10000 + i) % u32Mod := by
  induction i with
  | zero => rfl
  | succ j ih =>
    show ((chainPrev j).L1BlockNumber + 1) % u32Mod = (10000 + (j + 1)) % u32Mod
    rw [ih]
    unfold u32Mod
    omega

lemma chainPrev_succ (i : Nat) : chainPrev (i + 1) = keystoneOfIndex i := by
  show nextKeystone (chainPrev i) i = keystoneOfIndex i
  unfold nextKeystone keystoneOfIndex
  rw [chainPrev_EPHash, chainPrev_L1]
  have : ((10000 + i) % u32Mod + 1) % u32Mod = (10001 + i) % u32Mod := by
    unfold u32Mod; omega
  rw [this]

/-! Lemmas about the Go-map model. -/

lemma mapInsert_any_iff (m : List (List Nat × L2KeystoneAbrev)) (k : List Nat) :
    (m.any (fun p => decide (p.1 = k)) = true) ↔ k ∈ m.map Prod.fst := by
  rw [List.any_eq_true]
  constructor
  · rintro ⟨p, hp, hpk⟩
    exact List.mem_map.2 ⟨p, hp, of_decide_eq_true hpk⟩
  · intro h
    rcases List.mem_map.1 h with ⟨p, hp, hpk⟩
    exact ⟨p, hp, decide_eq_true hpk⟩

lemma mapInsert_keys (m : List (List Nat × L2KeystoneAbrev)) (k : List Nat)
    (v : L2KeystoneAbrev) :
    (mapInsert m k v).map Prod.fst =
      if k ∈ m.map Prod.fst then m.map Prod.fst else m.map Prod.fst ++ [k] := by
  unfold mapInsert
  by_cases h : k ∈ m.map Prod.fst
  · rw [if_pos ((mapInsert_any_iff m k).2 h), if_pos h, List.map_map]
    refine List.map_congr_left ?_
    intro p _
    by_cases hp : p.1 = k
    · simp [Function.comp, hp]
    · simp [Function.comp, hp]
  · rw [if_neg (fun hc => h ((mapInsert_any_iff m k).1 hc)), if_neg h]
    simp

lemma mapInsert_length (m : List (List Nat × L2KeystoneAbrev)) (k : List Nat)
    (v : L2KeystoneAbrev) :
    (mapInsert m k v).length =
      if k ∈ m.map Prod.fst then m.length else m.length + 1 := by
  unfold mapInsert
  by_cases h : k ∈ m.map Prod.fst
  · rw [if_pos ((mapInsert_any_iff m k).2 h), if_pos h, List.length_map]
  · rw [if_neg (fun hc => h ((mapInsert_any_iff m k).1 hc)), if_neg h]
    simp

lemma mapInsert_nodup (m : List (List Nat × L2KeystoneAbrev)) (k : List Nat)
    (v : L2KeystoneAbrev) (h : (m.map Prod.fst).Nodup) :
    ((mapInsert m k v).map Prod.fst).Nodup := by
  rw [mapInsert_keys]
  by_cases hk : k ∈ m.map Prod.fst
  · rw [if_pos hk]; exact h
  · rw [if_neg hk]
    simp [List.nodup_append, h, hk]

lemma foldl_mapInsert_length (l : List L2Keystone) :
    ∀ m : List (List Nat × L2KeystoneAbrev), (m.map Prod.fst).Nodup →
      (l.foldl (fun acc kk =>
        mapInsert acc (keystoneKey kk) (L2KeystoneAbbreviate kk)) m).length
      = (m.map Prod.fst ++ l.map keystoneKey).toFinset.card := by
  induction l with
  | nil =>
    intro m h
    simp [List.toFinset_card_of_nodup h]
  | cons kk l ih =>
    intro m h
    rw [List.foldl_cons]
    rw [ih (mapInsert m (keystoneKey kk) (L2KeystoneAbbreviate kk))
        (mapInsert_nodup m _ _ h)]
    apply congrArg Finset.card
    rw [mapInsert_keys]
    by_cases hk : keystoneKey kk ∈ m.map Prod.fst
    · rw [if_pos hk]
      ext a
      simp only [List.toFinset_append, Finset.mem_union, List.mem_toFinset,
        List.map_cons, List.mem_cons]
      constructor
      · rintro (ha | ha)
        · exact Or.inl ha
        · exact Or.inr (Or.inr ha)
      · rintro (ha | ha | ha)
        · exact Or.inl ha
        · exact Or.inl (ha ▸ hk)
        · exact Or.inr ha
    · rw [if_neg hk]
      ext a
      simp only [List.toFinset_append, Finset.mem_union, List.mem_toFinset,
        List.map_cons, List.mem_cons, List.mem_append, List.mem_singleton]
      tauto

lemma buildMap_length (l : List L2Keystone) :
    (buildMap l).length = (l.map keystoneKey).toFinset.card := by
  have h := foldl_mapInsert_length l [] (by simp)
  simpa [buildMap] using h

lemma toFinset_map_range (f : Nat → List Nat) (n : Nat) :
    ((List.range n).map f).toFinset = Finset.image f (Finset.range n) := by
  ext a
  simp

lemma MakeSharedKeystones_fst (n : Nat) :
    (MakeSharedKeystones n).1 = buildMap (keystoneList n) := rfl

lemma MakeSharedKeystones_snd (n : Nat) :
    (MakeSharedKeystones n).2 = keystoneList n := rfl

/-! The claim theorems. -/

/-- Claim C1: for every n >= 1 and every i in [1, n), the i-th keystone
record returned by `MakeSharedKeystones n` has `PrevKeystoneEPHash` equal
to the `EPHash` of record i-1, and record 0's `PrevKeystoneEPHash` equals
the `EPHash` of the fixed synthetic genesis record, which is the SHA256
digest of the single byte 0. -/
theorem MakeSharedKeystones_chain (n : Nat) (hn : 1 ≤ n) :
    (∀ i, 1 ≤ i → i < n →
      ((MakeSharedKeystones n).2.getD i default).PrevKeystoneEPHash
        = ((MakeSharedKeystones n).2.getD (i - 1) default).EPHash)
    ∧ ((MakeSharedKeystones n).2.getD 0 default).PrevKeystoneEPHash
        = genesisKeystone.EPHash
    ∧ genesisKeystone.EPHash = SHA256 [0] := by
  refine ⟨?_, ?_, rfl⟩
  · intro i h1 h2
    rw [MakeSharedKeystones_snd, keystoneList_getD n i h2,
      keystoneList_getD n (i - 1) (by omega)]
    have hsub : i - 1 + 1 = i := by omega
    rw [hsub]
    show (nextKeystone (chainPrev i) i).PrevKeystoneEPHash = _
    rfl
  · rw [MakeSharedKeystones_snd, keystoneList_getD n 0 hn]
    rfl

/-- Witness for C1: at n = 2, the link between records 1 and 0 and the
genesis link of record 0, obtained from the theorem itself. -/
theorem MakeSharedKeystones_chain_witness :
    ((MakeSharedKeystones 2).2.getD 1 default).PrevKeystoneEPHash
      = ((MakeSharedKeystones 2).2.getD 0 default).EPHash
    ∧ ((MakeSharedKeystones 2).2.getD 0 default).PrevKeystoneEPHash
      = genesisKeystone.EPHash :=
  ⟨by
    have h := (MakeSharedKeystones_chain 2 (by decide)).1 1 (by decide) (by decide)
    simpa using h,
   (MakeSharedKeystones_chain 2 (by decide)).2.1⟩

/-- Claim C2 (amended): for every n, the slice has exactly n records, and
the map has one entry per distinct abbreviated content hash among the n
records — so exactly n entries whenever those hashes are distinct; for
n = 0 both are empty.  (As stated, "exactly n entries for every n" fails:
the record fields wrap at 2^32, so for n > 2^32 records repeat and the map
stays strictly smaller, see the counterexample.) -/
theorem MakeSharedKeystones_count (n : Nat) :
    (MakeSharedKeystones n).2.length = n
    ∧ (MakeSharedKeystones n).1.length
        = ((keystoneList n).map keystoneKey).toFinset.card
    ∧ (((keystoneList n).map keystoneKey).Nodup →
        (MakeSharedKeystones n).1.length = n)
    ∧ (MakeSharedKeystones 0).1 = [] ∧ (MakeSharedKeystones 0).2 = [] := by
  refine ⟨keystoneList_length n, ?_, ?_, rfl, rfl⟩
  · rw [MakeSharedKeystones_fst]
    exact buildMap_length _
  · intro hnd
    rw [MakeSharedKeystones_fst, buildMap_length,
      List.toFinset_card_of_nodup hnd, List.length_map, keystoneList_length]

set_option maxRecDepth 100000 in
/-- Witness for C2: at n = 2 the two abbreviated hashes are distinct, and
the theorem yields exactly 2 records and 2 map entries. -/
theorem MakeSharedKeystones_count_witness :
    (MakeSharedKeystones 2).1.length = 2
    ∧ (MakeSharedKeystones 2).2.length = 2 :=
  ⟨(MakeSharedKeystones_count 2).2.2.1 (by decide),
   (MakeSharedKeystones_count 2).1⟩

/-- Counterexample for C2 as stated: at n = 2^32 + 1 = 4294967297 the map
does not have n entries — record 2^32 coincides with record 0 because
every field of a record depends on the loop index only modulo 2^32, so the
two records share one map key. -/
theorem MakeSharedKeystones_count_cex :
    (MakeSharedKeystones 4294967297).1.length ≠ 4294967297 := by
  have hkeys : (keystoneList 4294967297).map keystoneKey
      = (List.range 4294967297).map (fun j => keystoneKey (chainPrev (j + 1))) := by
    rw [keystoneList_eq, List.map_map]
    exact List.map_congr_left (fun j _ => rfl)
  have h1 : (MakeSharedKeystones 4294967297).1.length
      = (Finset.image (fun j => keystoneKey (chainPrev (j + 1)))
          (Finset.range 4294967297)).card := by
    rw [MakeSharedKeystones_fst, buildMap_length, hkeys, toFinset_map_range]
  have hchain : chainPrev (4294967296 + 1) = chainPrev (0 + 1) := by
    rw [chainPrev_succ, chainPrev_succ]
    unfold keystoneOfIndex keystoneByte u32Mod
    norm_num
  have hdup : keystoneKey (chainPrev (4294967296 + 1))
      = keystoneKey (chainPrev (0 + 1)) := congrArg keystoneKey hchain
  have hn : (4294967297 : Nat) = 4294967296 + 1 := by norm_num
  have himg : Finset.image (fun j => keystoneKey (chainPrev (j + 1)))
        (Finset.range 4294967297)
      = Finset.image (fun j => keystoneKey (chainPrev (j + 1)))
        (Finset.range 4294967296) := by
    rw [hn, Finset.range_succ, Finset.image_insert, hdup]
    exact Finset.insert_eq_self.2
      (Finset.mem_image.2 ⟨0, Finset.mem_range.2 (by norm_num), rfl⟩)
  rw [h1, himg]
  have hcard : (Finset.image (fun j => keystoneKey (chainPrev (j + 1)))
      (Finset.range 4294967296)).card ≤ 4294967296 := by
    calc (Finset.image (fun j => keystoneKey (chainPrev (j + 1)))
        (Finset.range 4294967296)).card
        ≤ (Finset.range 4294967296).card := Finset.card_image_le
      _ = 4294967296 := Finset.card_range _
  omega

/-- Claim C4 (amended): `MakeSharedKeystones` is deterministic — the
embedding is a pure function of n alone, and each record equals a closed
form computed from its loop index only; the per-record byte value is
(index + 1) mod 256 (Go's `uint8(ci + 1)` truncates, so it equals
index + 1 only while index + 1 < 256, see the counterexample). -/
theorem MakeSharedKeystones_deterministic :
    (∀ n, MakeSharedKeystones n = MakeSharedKeystones n)
    ∧ (∀ n, (MakeSharedKeystones n).2 = (List.range n).map keystoneOfIndex)
    ∧ (∀ i, keystoneByte i = (i + 1) % 256) := by
  refine ⟨fun n => rfl, fun n => ?_, fun i => rfl⟩
  rw [MakeSharedKeystones_snd, keystoneList_eq]
  exact List.map_congr_left (fun j _ => chainPrev_succ j)

/-- Counterexample for C4 as stated: at loop index 255 the per-record byte
is `uint8(255 + 1) = 0`, not 256; record 255 of `MakeSharedKeystones 256`
is built from byte 0. -/
theorem keystoneByte_cex :
    keystoneByte 255 ≠ 255 + 1
    ∧ keystoneByte 255 = 0
    ∧ ((MakeSharedKeystones 256).2.getD 255 default).EPHash
        = SHA256 [keystoneByte 255] := by
  refine ⟨by decide, by decide, ?_⟩
  rw [MakeSharedKeystones_snd, keystoneList_getD 256 255 (by norm_num),
    chainPrev_succ]
  rfl

lemma FillBytes_nonpos (pfx : List Nat) (n : Int) (h : n ≤ 0) :
    FillBytes pfx n = [] := by
  unfold FillBytes
  have hn : (if n < 0 then 0 else n.toNat) = 0 := by
    by_cases h2 : n < 0
    · simp [h2]
    · rw [if_neg h2]; omega
  rw [hn]
  by_cases hp : pfx.length > 0
  · simp [hp]
  · have : pfx = [] := List.eq_nil_of_length_eq_zero (by omega)
    simp [this]

lemma FillBytesZero_nonpos (pfx : List Nat) (n : Int) (h : n ≤ 0) :
    FillBytesZero pfx n = [] := by
  unfold FillBytesZero
  have hn : (if n < 0 then 0 else n.toNat) = 0 := by
    by_cases h2 : n < 0
    · simp [h2]
    · rw [if_neg h2]; omega
  rw [hn]
  by_cases hp : pfx.length > 0
  · simp [hp]
  · have : pfx = [] := List.eq_nil_of_length_eq_zero (by omega)
    simp [this]

/-- Claim C5: for n at least the prefix length, `FillBytes` returns
exactly n bytes, the prefix followed by underscore (byte 95) fill; for
0 <= n below the prefix length it returns the prefix truncated to n
bytes; negative n is treated as 0. -/
theorem FillBytes_spec (pfx : List Nat) (n : Int) :
    ((pfx.length : Int) ≤ n →
      (FillBytes pfx n).length = n.toNat
      ∧ (FillBytes pfx n).take pfx.length = pfx
      ∧ ∀ b ∈ (FillBytes pfx n).drop pfx.length, b = 95)
    ∧ (0 ≤ n → n < (pfx.length : Int) → FillBytes pfx n = pfx.take n.toNat)
    ∧ (n < 0 → FillBytes pfx n = FillBytes pfx 0
        ∧ (FillBytes pfx n).length = 0) := by
  refine ⟨?_, ?_, ?_⟩
  · intro h
    have h0 : ¬ n < 0 := by omega
    have hp : ¬ pfx.length > n.toNat := by omega
    unfold FillBytes
    simp only [if_neg h0, if_neg hp]
    refine ⟨?_, List.take_left pfx _, ?_⟩
    · simp only [List.length_append, List.length_replicate]
      omega
    · rw [List.drop_left]
      intro b hb
      exact List.eq_of_mem_replicate hb
  · intro h0 hlt
    have h0' : ¬ n < 0 := by omega
    have hgt : pfx.length > n.toNat := by omega
    have hp : (pfx.take n.toNat).length = n.toNat := by
      rw [List.length_take]; omega
    unfold FillBytes
    simp only [if_neg h0', if_pos hgt, hp]
    simp
  · intro h
    rw [FillBytes_nonpos pfx n (by omega), FillBytes_nonpos pfx 0 (by omega)]
    exact ⟨rfl, rfl⟩

/-- Witness for C5 at prefix [104, 105] with n = 5, 1 and -3, from the
theorem itself. -/
theorem FillBytes_spec_witness :
    (FillBytes [104, 105] 5).length = (5 : Int).toNat
    ∧ (FillBytes [104, 105] 5).take ([104, 105] : List Nat).length = [104, 105]
    ∧ FillBytes [104, 105] 1 = ([104, 105] : List Nat).take (1 : Int).toNat
    ∧ FillBytes [104, 105] (-3) = FillBytes [104, 105] 0 :=
  ⟨((FillBytes_spec [104, 105] 5).1 (by norm_num)).1,
   ((FillBytes_spec [104, 105] 5).1 (by norm_num)).2.1,
   (FillBytes_spec [104, 105] 1).2.1 (by norm_num) (by norm_num),
   ((FillBytes_spec [104, 105] (-3)).2.2 (by norm_num)).1⟩

/-- Claim C6: for n at least the prefix length, `FillBytesZero` returns
exactly n bytes, the prefix followed by zero bytes; for 0 <= n below the
prefix length it returns the prefix truncated to n bytes; negative n is
treated as 0. -/
theorem FillBytesZero_spec (pfx : List Nat) (n : Int) :
    ((pfx.length : Int) ≤ n →
      (FillBytesZero pfx n).length = n.toNat
      ∧ (FillBytesZero pfx n).take pfx.length = pfx
      ∧ ∀ b ∈ (FillBytesZero pfx n).drop pfx.length, b = 0)
    ∧ (0 ≤ n → n < (pfx.length : Int) → FillBytesZero pfx n = pfx.take n.toNat)
    ∧ (n < 0 → FillBytesZero pfx n = FillBytesZero pfx 0
        ∧ (FillBytesZero pfx n).length = 0) := by
  refine ⟨?_, ?_, ?_⟩
  · intro h
    have h0 : ¬ n < 0 := by omega
    have hp : ¬ pfx.length > n.toNat := by omega
    unfold FillBytesZero
    simp only [if_neg h0, if_neg hp]
    refine ⟨?_, List.take_left pfx _, ?_⟩
    · simp only [List.length_append, List.length_replicate]
      omega
    · rw [List.drop_left]
      intro b hb
      exact List.eq_of_mem_replicate hb
  · intro h0 hlt
    have h0' : ¬ n < 0 := by omega
    have hgt : pfx.length > n.toNat := by omega
    have hp : (pfx.take n.toNat).length = n.toNat := by
      rw [List.length_take]; omega
    unfold FillBytesZero
    simp only [if_neg h0', if_pos hgt, hp]
    simp
  · intro h
    rw [FillBytesZero_nonpos pfx n (by omega), FillBytesZero_nonpos pfx 0 (by omega)]
    exact ⟨rfl, rfl⟩

/-- Witness for C6 at prefix [104, 105] with n = 5, 1 and -3, from the
theorem itself. -/
theorem FillBytesZero_spec_witness :
    (FillBytesZero [104, 105] 5).length = (5 : Int).toNat
    ∧ (FillBytesZero [104, 105] 5).take ([104, 105] : List Nat).length = [104, 105]
    ∧ FillBytesZero [104, 105] 1 = ([104, 105] : List Nat).take (1 : Int).toNat
    ∧ FillBytesZero [104, 105] (-3) = FillBytesZero [104, 105] 0 :=
  ⟨((FillBytesZero_spec [104, 105] 5).1 (by norm_num)).1,
   ((FillBytesZero_spec [104, 105] 5).1 (by norm_num)).2.1,
   (FillBytesZero_spec [104, 105] 1).2.1 (by norm_num) (by norm_num),
   ((FillBytesZero_spec [104, 105] (-3)).2.2 (by norm_num)).1⟩

/-- Claim C8: with a working entropy source, `RandomBytes` returns a byte
slice of length exactly count for every count >= 0; on entropy failure it
aborts via panic (embedded as the `entropyFail` error) rather than
returning a slice. -/
theorem RandomBytes_spec (src : Nat → Nat) (count : Int) (h : 0 ≤ count) :
    (∃ l, RandomBytes (some src) count = .ok l ∧ (l.length : Int) = count)
    ∧ RandomBytes none count = .error RandPanic.entropyFail := by
  have h0 : ¬ count < 0 := by omega
  constructor
  · refine ⟨(List.range count.toNat).map src, ?_, ?_⟩
    · unfold RandomBytes
      rw [if_neg h0]
    · simp only [List.length_map, List.length_range]
      omega
  · unfold RandomBytes
    rw [if_neg h0]

/-- Witness for C8 at count = 3 with the identity byte source, from the
theorem itself. -/
theorem RandomBytes_spec_witness :
    (∃ l, RandomBytes (some (fun k => k)) 3 = .ok l ∧ (l.length : Int) = 3)
    ∧ RandomBytes none 3 = .error RandPanic.entropyFail :=
  RandomBytes_spec (fun k => k) 3 (by norm_num)

/-- Claim C10: for every negative count, `RandomBytes` panics in
`make([]byte, count)` (embedded as the `negativeLen` error) before the
entropy source is consulted — the result is the same for every entropy
source, working or failing. -/
theorem RandomBytes_negative (entropy : Option (Nat → Nat)) (count : Int)
    (h : count < 0) :
    RandomBytes entropy count = .error RandPanic.negativeLen := by
  unfold RandomBytes
  rw [if_pos h]

/-- Witness for C10 at count = -1, under both a working and a failing
entropy source, from the theorem itself. -/
theorem RandomBytes_negative_witness :
    RandomBytes (some (fun k => k)) (-1) = .error RandPanic.negativeLen
    ∧ RandomBytes none (-1) = .error RandPanic.negativeLen :=
  ⟨RandomBytes_negative (some (fun k => k)) (-1) (by norm_num),
   RandomBytes_negative none (-1) (by norm_num)⟩

/-- Claim C7: the SHA256 wrapper is deterministic and its digest length is
the fixed 32 bytes, independent of the input length. -/
theorem SHA256_spec (x y : List Nat) :
    SHA256 x = SHA256 x ∧ (SHA256 x).length = 32
    ∧ (SHA256 x).length = (SHA256 y).length := by
  refine ⟨rfl, ?_, ?_⟩ <;> simp [SHA256, sha256Sum256]

/-! Lemmas about the script-execution harness. -/

lemma ExecuteTX_new_error {σ : Type} (eng : ScriptEngine σ) (fuel : Nat)
    (e : GoErr) (h : eng.new = .error e) :
    ExecuteTX eng fuel = some (.error e) := by
  unfold ExecuteTX
  rw [h]

lemma ExecuteTX_of_new_ok {σ : Type} (eng : ScriptEngine σ) (fuel : Nat)
    (s : σ) (hnew : eng.new = .ok s) :
    ExecuteTX eng fuel =
      match runSteps eng s fuel with
      | none => none
      | some (.error e) => some (.error e)
      | some (.ok sFinal) =>
        match eng.checkErrorCondition sFinal true with
        | some e => some (.error e)
        | none => some (.ok ()) := by
  unfold ExecuteTX
  rw [hnew]

lemma ExecuteTX_run_error {σ : Type} (eng : ScriptEngine σ) (fuel : Nat)
    (s : σ) (e : GoErr) (hnew : eng.new = .ok s)
    (hrun : runSteps eng s fuel = some (.error e)) :
    ExecuteTX eng fuel = some (.error e) := by
  rw [ExecuteTX_of_new_ok eng fuel s hnew, hrun]

lemma ExecuteTX_run_none {σ : Type} (eng : ScriptEngine σ) (fuel : Nat)
    (s : σ) (hnew : eng.new = .ok s) (hrun : runSteps eng s fuel = none) :
    ExecuteTX eng fuel = none := by
  rw [ExecuteTX_of_new_ok eng fuel s hnew, hrun]

lemma ExecuteTX_check_error {σ : Type} (eng : ScriptEngine σ) (fuel : Nat)
    (s sFinal : σ) (e : GoErr) (hnew : eng.new = .ok s)
    (hrun : runSteps eng s fuel = some (.ok sFinal))
    (hchk : eng.checkErrorCondition sFinal true = some e) :
    ExecuteTX eng fuel = some (.error e) := by
  rw [ExecuteTX_of_new_ok eng fuel s hnew, hrun]
  show (match eng.checkErrorCondition sFinal true with
    | some e => some (Except.error e)
    | none => some (Except.ok ())) = some (Except.error e)
  rw [hchk]

lemma runSteps_error_src {σ : Type} (eng : ScriptEngine σ) :
    ∀ fuel (s : σ) (e : GoErr), runSteps eng s fuel = some (.error e) →
      ∃ s1, Reaches eng s s1 ∧ (eng.disasmPC s1 = .error e
        ∨ ∃ d, eng.disasmPC s1 = .ok d ∧ eng.step s1 = .error e) := by
  intro fuel
  induction fuel with
  | zero =>
    intro s e h
    simp [runSteps] at h
  | succ f ih =>
    intro s e h
    unfold runSteps at h
    cases hd : eng.disasmPC s with
    | error e2 =>
      rw [hd] at h
      have he : e2 = e := by simpa using h
      exact ⟨s, Reaches.refl s, Or.inl (he ▸ hd)⟩
    | ok d =>
      rw [hd] at h
      cases hs : eng.step s with
      | error e2 =>
        rw [hs] at h
        have he : e2 = e := by simpa using h
        exact ⟨s, Reaches.refl s, Or.inr ⟨d, hd, he ▸ hs⟩⟩
      | ok p =>
        rcases p with ⟨done, s2⟩
        rw [hs] at h
        cases done with
        | true => simp at h
        | false =>
          simp only [Bool.false_eq_true, if_false] at h
          obtain ⟨s1, hr, hcase⟩ := ih s2 e h
          exact ⟨s1, Reaches.step s s2 s1 d hd hs hr, hcase⟩

lemma runSteps_ok_done {σ : Type} (eng : ScriptEngine σ) :
    ∀ fuel (s sf : σ), runSteps eng s fuel = some (.ok sf) →
      ∃ s1 d, Reaches eng s s1 ∧ eng.disasmPC s1 = .ok d
        ∧ eng.step s1 = .ok (true, sf) := by
  intro fuel
  induction fuel with
  | zero =>
    intro s sf h
    simp [runSteps] at h
  | succ f ih =>
    intro s sf h
    unfold runSteps at h
    cases hd : eng.disasmPC s with
    | error e2 =>
      rw [hd] at h
      simp at h
    | ok d =>
      rw [hd] at h
      cases hs : eng.step s with
      | error e2 =>
        rw [hs] at h
        simp at h
      | ok p =>
        rcases p with ⟨done, s2⟩
        rw [hs] at h
        cases done with
        | true =>
          have h2 : s2 = sf := by simpa using h
          exact ⟨s, d, Reaches.refl s, hd, h2 ▸ hs⟩
        | false =>
          simp only [Bool.false_eq_true, if_false] at h
          obtain ⟨s1, d1, hr, hd1, hs1⟩ := ih s2 sf h
          exact ⟨s1, d1, Reaches.step s s2 s1 d hd hs hr, hd1, hs1⟩

lemma runSteps_done_now {σ : Type} (eng : ScriptEngine σ) (s : σ) (d : String)
    (sf : σ) (hd : eng.disasmPC s = .ok d) (hs : eng.step s = .ok (true, sf)) :
    ∀ f, runSteps eng s (f + 1) = some (.ok sf) := by
  intro f
  unfold runSteps
  rw [hd, hs]
  simp

/-- Claim C3: `ExecuteTX` propagates, unchanged, any error produced by the
external script interpreter — at engine construction, at a single
execution step of the loop (the disassembly call or the step call), or at
the final error-condition check — and it returns nil only when
construction, the stepping loop and the final check all succeed. -/
theorem ExecuteTX_propagates {σ : Type} (eng : ScriptEngine σ) (fuel : Nat) :
    (∀ e, eng.new = .error e → ExecuteTX eng fuel = some (.error e))
    ∧ (∀ s e, eng.new = .ok s → runSteps eng s fuel = some (.error e) →
        ExecuteTX eng fuel = some (.error e))
    ∧ (∀ s sf e, eng.new = .ok s → runSteps eng s fuel = some (.ok sf) →
        eng.checkErrorCondition sf true = some e →
        ExecuteTX eng fuel = some (.error e))
    ∧ (∀ s e, runSteps eng s fuel = some (.error e) →
        ∃ s1, Reaches eng s s1 ∧ (eng.disasmPC s1 = .error e
          ∨ ∃ d, eng.disasmPC s1 = .ok d ∧ eng.step s1 = .error e))
    ∧ (ExecuteTX eng fuel = some (.ok ()) →
        ∃ s sf, eng.new = .ok s ∧ runSteps eng s fuel = some (.ok sf)
          ∧ eng.checkErrorCondition sf true = none) := by
  refine ⟨ExecuteTX_new_error eng fuel,
    fun s e => ExecuteTX_run_error eng fuel s e,
    fun s sf e => ExecuteTX_check_error eng fuel s sf e,
    fun s e => runSteps_error_src eng fuel s e, ?_⟩
  intro h
  cases hnew : eng.new with
  | error e =>
    rw [ExecuteTX_new_error eng fuel e hnew] at h
    simp at h
  | ok s =>
    cases hrun : runSteps eng s fuel with
    | none =>
      rw [ExecuteTX_run_none eng fuel s hnew hrun] at h
      simp at h
    | some r =>
      cases r with
      | error e =>
        rw [ExecuteTX_run_error eng fuel s e hnew hrun] at h
        simp at h
      | ok sf =>
        cases hchk : eng.checkErrorCondition sf true with
        | some e =>
          rw [ExecuteTX_check_error eng fuel s sf e hnew hrun hchk] at h
          simp at h
        | none => exact ⟨s, sf, rfl, hrun, hchk⟩

/-- Witness for C3: concrete engines exercising, via the theorem itself,
the construction-error, step-error and final-check-error propagation paths
and the characterization of a nil return. -/
theorem ExecuteTX_propagates_witness :
    ExecuteTX engNewFail 3 = some (.error "bad new")
    ∧ ExecuteTX engStepFail 3 = some (.error "bad step")
    ∧ ExecuteTX engCheckFail 3 = some (.error "bad check")
    ∧ (∃ s sf, engOK.new = .ok s ∧ runSteps engOK s 3 = some (.ok sf)
        ∧ engOK.checkErrorCondition sf true = none) :=
  ⟨(ExecuteTX_propagates engNewFail 3).1 "bad new" rfl,
   (ExecuteTX_propagates engStepFail 3).2.1 0 "bad step" rfl rfl,
   (ExecuteTX_propagates engCheckFail 3).2.2.1 0 1 "bad check" rfl rfl rfl,
   (ExecuteTX_propagates engOK 3).2.2.2.2 rfl⟩

/-- Claim C9: the stepping loop exits successfully exactly at a step that
reports done without error — every successful loop exit comes from a
reached state whose step returned (true, final); a done-step exits the
loop at once; and while the loop has not reported completion (fuel runs
out or an error occurs first), `ExecuteTX` never consults the final
error-condition check: its result is fixed regardless of that check. -/
theorem ExecuteTX_check_after_done {σ : Type} (eng : ScriptEngine σ)
    (fuel : Nat) :
    (∀ s sf, runSteps eng s fuel = some (.ok sf) →
      ∃ s1 d, Reaches eng s s1 ∧ eng.disasmPC s1 = .ok d
        ∧ eng.step s1 = .ok (true, sf))
    ∧ (∀ s d sf, eng.disasmPC s = .ok d → eng.step s = .ok (true, sf) →
        runSteps eng s (fuel + 1) = some (.ok sf))
    ∧ (∀ s, eng.new = .ok s → runSteps eng s fuel = none →
        ExecuteTX eng fuel = none)
    ∧ (∀ s e, eng.new = .ok s → runSteps eng s fuel = some (.error e) →
        ExecuteTX eng fuel = some (.error e)) :=
  ⟨fun s sf => runSteps_ok_done eng fuel s sf,
   fun s d sf hd hs => runSteps_done_now eng s d sf hd hs fuel,
   fun s => ExecuteTX_run_none eng fuel s,
   fun s e => ExecuteTX_run_error eng fuel s e⟩

/-- Witness for C9: on the concrete two-step engine, via the theorem
itself: the successful exit at state 2 comes from a done-step, and with
fuel for only one iteration the loop does not complete, so `ExecuteTX`
returns none without consulting the final check. -/
theorem ExecuteTX_check_after_done_witness :
    (∃ s1 d, Reaches engOK 0 s1 ∧ engOK.disasmPC s1 = .ok d
      ∧ engOK.step s1 = .ok (true, 2))
    ∧ ExecuteTX engOK 1 = none :=
  ⟨(ExecuteTX_check_after_done engOK 3).1 0 2 rfl,
   (ExecuteTX_check_after_done engOK 1).2.2.1 0 rfl rfl⟩

end Testutil
